import Mathlib

/-!
Verification of the Audio Disc Layout & Production Engine of the Singe
repository (src/Singe.py) against its natural-language specification.

Python values are embedded as follows: floating-point durations become exact
rationals, Python int becomes Int or Nat, Python str becomes String or
List Char, Optional becomes Option, and the external collaborators (the
audio prober, the disc reader) become explicit function parameters.  The
class methods of AudioCDWriter and BatchBurnQueue are embedded as plain
functions; console printing is dropped, but every value-relevant branch of
the source is kept.
-/

/-- CD capacity constant `AudioCDWriter.CD_74_MIN_SECONDS` (Singe.py line 713). -/
def CD_74_MIN_SECONDS : ℕ := 74 * 60

/-- CD capacity constant `AudioCDWriter.CD_80_MIN_SECONDS` (Singe.py line 714). -/
def CD_80_MIN_SECONDS : ℕ := 80 * 60

/-- Default gap between tracks, `AudioCDWriter.DEFAULT_GAP_SECONDS` (line 717). -/
def DEFAULT_GAP_SECONDS : ℚ := 2

/-- One disc dictionary produced by `split_into_discs` (lines 785-789):
`{'tracks': ..., 'duration': ..., 'track_count': ...}`.  The type is
parametric in the track (file path) type. -/
structure Disc (α : Type) where
  tracks : List α
  duration : ℚ
  track_count : ℕ
deriving DecidableEq, Repr

/-- The duration-probing pass of `split_into_discs` (lines 763-772): each file
is probed with `get_audio_duration`; the pair `(file, duration)` is kept only
when the probed duration is truthy in Python, that is, neither `None` nor
`0.0`.  The prober is the `dur` parameter. -/
def file_durations {α : Type} (dur : α → Option ℚ) (files : List α) :
    List (α × ℚ) :=
  files.filterMap (fun f =>
    match dur f with
    | some d => if d = 0 then none else some (f, d)
    | none => none)

/-- The packing loop of `split_into_discs` (lines 779-808).  `pend` is the
remaining `(file, duration)` list, `cur` the current disc under construction
(the source keeps only the file paths in `current_disc`; the resolved
durations are carried alongside here and projected away on emission), and
`curDur` the accumulated `current_duration`.  A disc is emitted when adding
the next track would push `current_duration + track_total + safety_margin`
over the capacity, and the final non-empty disc is emitted at the end. -/
def splitLoop {α : Type} (cap margin gap : ℚ) :
    List (α × ℚ) → List (α × ℚ) → ℚ → List (Disc α)
  | [], cur, curDur =>
      if cur.isEmpty then []
      else [⟨cur.map Prod.fst, curDur, cur.length⟩]
  | (f, d) :: rest, cur, curDur =>
      let track_total := d + gap
      if cur.isEmpty = false ∧ cap < curDur + track_total + margin then
        ⟨cur.map Prod.fst, curDur, cur.length⟩ ::
          splitLoop cap margin gap rest [(f, d)] track_total
      else
        splitLoop cap margin gap rest (cur ++ [(f, d)]) (curDur + track_total)

/-- `AudioCDWriter.split_into_discs` (lines 730-810).  The safety margin is the
Python expression `int(cd_capacity * 0.02)`, which for the capacities in use
equals `cd_capacity * 2 / 100` in truncating natural division (88 for the
74-minute capacity, 96 for the 80-minute capacity); `gap_overhead` is
2 seconds when gaps are included, else 0.  If no file has a truthy duration
the function returns the empty plan (line 774-776). -/
def split_into_discs {α : Type} (dur : α → Option ℚ) (audio_files : List α)
    (cd_capacity : ℕ) (include_gaps : Bool) : List (Disc α) :=
  let safety_margin : ℕ := cd_capacity * 2 / 100
  let gap_overhead : ℚ := if include_gaps then DEFAULT_GAP_SECONDS else 0
  let fd := file_durations dur audio_files
  if fd.isEmpty then []
  else splitLoop (cd_capacity : ℚ) (safety_margin : ℚ) gap_overhead fd [] 0

/-- The tracks flagged by the warning print inside the packing loop
(lines 797-800): exactly the resolved tracks whose `track_total`
(duration plus gap overhead) exceeds the CD capacity. -/
def capacity_warnings {α : Type} (dur : α → Option ℚ) (audio_files : List α)
    (cd_capacity : ℕ) (include_gaps : Bool) : List α :=
  let gap_overhead : ℚ := if include_gaps then DEFAULT_GAP_SECONDS else 0
  ((file_durations dur audio_files).filter
    (fun p => decide ((cd_capacity : ℚ) < p.2 + gap_overhead))).map Prod.fst

/-- Concatenation of the track lists of a disc plan, in disc order. -/
def planTracks {α : Type} (discs : List (Disc α)) : List α :=
  (discs.map Disc.tracks).flatten

example :
    split_into_discs (fun _ : Unit => some (300 : ℚ)) [(), (), ()]
      CD_80_MIN_SECONDS true =
      [⟨[(), (), ()], 906, 3⟩] := by
  norm_num [split_into_discs, splitLoop, file_durations, DEFAULT_GAP_SECONDS,
    CD_80_MIN_SECONDS]
  exact ⟨(), by simp⟩

example :
    split_into_discs (fun n : ℕ => some ((if n = 2 then 4000 else if n = 0 then 300 else 200 : ℚ)))
      [0, 1, 2] CD_74_MIN_SECONDS true =
      [⟨[0, 1], 504, 2⟩, ⟨[2], 4002, 1⟩] := by
  norm_num [split_into_discs, splitLoop, file_durations, DEFAULT_GAP_SECONDS,
    CD_74_MIN_SECONDS]
  intro h
  simp at h

lemma planTracks_nil {α : Type} : planTracks ([] : List (Disc α)) = [] := rfl

lemma planTracks_cons {α : Type} (d : Disc α) (L : List (Disc α)) :
    planTracks (d :: L) = d.tracks ++ planTracks L := by
  simp [planTracks]

/-- The packing loop emits every pending track exactly once, in order, after
first emitting the tracks of the disc under construction. -/
lemma splitLoop_planTracks {α : Type} (cap margin gap : ℚ)
    (pend : List (α × ℚ)) :
    ∀ (cur : List (α × ℚ)) (curDur : ℚ),
      planTracks (splitLoop cap margin gap pend cur curDur) =
        cur.map Prod.fst ++ pend.map Prod.fst := by
  induction pend with
  | nil =>
      intro cur curDur
      cases cur <;> simp [splitLoop, planTracks]
  | cons p rest ih =>
      intro cur curDur
      obtain ⟨f, d⟩ := p
      by_cases hc : cur.isEmpty = false ∧ cap < curDur + (d + gap) + margin
      · simp only [splitLoop, if_pos hc, planTracks_cons, ih]
        simp
      · simp only [splitLoop, if_neg hc, ih]
        simp

/-- Every pair kept by the probing pass carries the probed duration of its
file, and that duration is nonzero. -/
lemma file_durations_sound {α : Type} (dur : α → Option ℚ) (files : List α) :
    ∀ p ∈ file_durations dur files, dur p.1 = some p.2 ∧ p.2 ≠ 0 := by
  intro p hp
  simp only [file_durations, List.mem_filterMap] at hp
  obtain ⟨f, _, hf⟩ := hp
  rcases hdf : dur f with _ | d
  · rw [hdf] at hf
    simp at hf
  · rw [hdf] at hf
    by_cases hz : d = 0
    · simp [hz] at hf
    · simp only [if_neg hz, Option.some.injEq] at hf
      cases hf
      exact ⟨hdf, hz⟩

/-- When every file probes to a truthy (nonzero) duration, the probing pass
keeps all files in order. -/
lemma file_durations_map_fst {α : Type} (dur : α → Option ℚ) (files : List α)
    (h : ∀ f ∈ files, ∃ d, dur f = some d ∧ d ≠ 0) :
    (file_durations dur files).map Prod.fst = files := by
  induction files with
  | nil => rfl
  | cons f fs ih =>
      obtain ⟨d, hd, hz⟩ := h f (List.mem_cons_self f fs)
      simp only [file_durations, List.filterMap_cons, hd, if_neg hz]
      simpa [file_durations] using ih (fun g hg => h g (List.mem_cons_of_mem f hg))

/-- When no file probes to a duration at all, the probing pass keeps nothing. -/
lemma file_durations_none {α : Type} (dur : α → Option ℚ) (files : List α)
    (h : ∀ f ∈ files, dur f = none) :
    file_durations dur files = [] := by
  induction files with
  | nil => rfl
  | cons f fs ih =>
      simp only [file_durations, List.filterMap_cons, h f (List.mem_cons_self f fs)]
      exact ih (fun g hg => h g (List.mem_cons_of_mem f hg))

/-- C1 (corrected): if every file probes to a truthy (nonzero) duration,
concatenating the track lists of the discs returned by `split_into_discs`, in
disc order, reproduces the input list exactly; and if no file probes to a
duration, the plan is empty. -/
theorem C1_amended {α : Type} (dur : α → Option ℚ) (files : List α)
    (cap : ℕ) (g : Bool) :
    ((∀ f ∈ files, ∃ d, dur f = some d ∧ d ≠ 0) →
        planTracks (split_into_discs dur files cap g) = files) ∧
    ((∀ f ∈ files, dur f = none) →
        split_into_discs dur files cap g = []) := by
  constructor
  · intro h
    have hfst := file_durations_map_fst dur files h
    by_cases he : (file_durations dur files).isEmpty
    · have hnil : file_durations dur files = [] := by
        cases hfd : file_durations dur files
        · rfl
        · rw [hfd] at he
          simp at he
      have hfiles : files = [] := by
        rw [hnil] at hfst
        simpa using hfst.symm
      subst hfiles
      simp [split_into_discs, hnil, planTracks]
    · simp only [split_into_discs]
      rw [if_neg (by simpa using he)]
      rw [splitLoop_planTracks]
      simpa using hfst
  · intro h
    simp [split_into_discs, file_durations_none dur files h]

/-- Probe used in the C1 counterexample: the duration resolves, to 0.0. -/
def zeroProbe : Unit → Option ℚ := fun _ => some 0

/-- C1 counterexample: for the one-file input whose duration resolves to 0.0
(a falsy value in Python), `split_into_discs` drops the file, so the
concatenated plan does not reproduce the input even though every duration
resolves. -/
theorem C1_counterexample :
    (∀ f ∈ [()], ∃ d : ℚ, zeroProbe f = some d) ∧
    planTracks (split_into_discs zeroProbe [()] CD_80_MIN_SECONDS true) ≠ [()] := by
  constructor
  · intro f _
    exact ⟨0, rfl⟩
  · simp [split_into_discs, file_durations, zeroProbe, planTracks]

/-- Probe used in the C1 witness. -/
def probeW : ℕ → Option ℚ := fun n => if n = 0 then some 300 else some 200

theorem C1_amended_witness :
    planTracks (split_into_discs probeW [0, 1] CD_80_MIN_SECONDS true) = [0, 1] :=
  (C1_amended probeW [0, 1] CD_80_MIN_SECONDS true).1 (by
    intro f hf
    fin_cases hf
    · exact ⟨300, rfl, by decide⟩
    · exact ⟨200, rfl, by decide⟩)

/-- Mapping the per-track total over the kept file paths recovers the pair
form, given that every kept pair carries the probed duration of its file. -/
lemma map_getD_totals {α : Type} (dur : α → Option ℚ) (gap : ℚ) :
    ∀ cur : List (α × ℚ), (∀ p ∈ cur, dur p.1 = some p.2) →
      (cur.map Prod.fst).map (fun f => (dur f).getD 0 + gap) =
        cur.map (fun p => p.2 + gap) := by
  intro cur
  induction cur with
  | nil => intro _; rfl
  | cons p ps ih =>
      intro h
      have hp := h p (List.mem_cons_self p ps)
      simp only [List.map_cons, hp, Option.getD_some]
      rw [ih (fun q hq => h q (List.mem_cons_of_mem p hq))]

/-- Properties of the disc emitted from the current accumulator. -/
lemma emitted_disc_ok {α : Type} (cap margin gap : ℚ) (dur : α → Option ℚ)
    (cur : List (α × ℚ)) (curDur : ℚ)
    (hcur : ∀ p ∈ cur, dur p.1 = some p.2)
    (hsum : curDur = (cur.map (fun p => p.2 + gap)).sum)
    (hfit : 2 ≤ cur.length → curDur + margin ≤ cap)
    (hne : cur ≠ []) :
    cur.map Prod.fst ≠ [] ∧
    cur.length = (cur.map Prod.fst).length ∧
    curDur = ((cur.map Prod.fst).map (fun f => (dur f).getD 0 + gap)).sum ∧
    (cap < curDur + margin → (cur.map Prod.fst).length = 1) := by
  refine ⟨by simpa using hne, by simp, ?_, ?_⟩
  · rw [map_getD_totals dur gap cur hcur]
    exact hsum
  · intro hover
    simp only [List.length_map]
    have hpos : 0 < cur.length := List.length_pos.mpr hne
    by_contra hne1
    have h2 : 2 ≤ cur.length := by omega
    exact absurd hover (not_lt.mpr (hfit h2))

/-- Packing-loop invariant: every emitted disc is nonempty, its stored
track count and duration agree with its track list, and a disc whose
duration plus the safety margin exceeds the capacity holds exactly one track
(a multi-track disc is only closed within the margin). -/
lemma splitLoop_inv {α : Type} (cap margin gap : ℚ) (dur : α → Option ℚ)
    (pend : List (α × ℚ)) :
    ∀ (cur : List (α × ℚ)) (curDur : ℚ),
      (∀ p ∈ pend, dur p.1 = some p.2) →
      (∀ p ∈ cur, dur p.1 = some p.2) →
      curDur = (cur.map (fun p => p.2 + gap)).sum →
      (2 ≤ cur.length → curDur + margin ≤ cap) →
      ∀ disc ∈ splitLoop cap margin gap pend cur curDur,
        disc.tracks ≠ [] ∧
        disc.track_count = disc.tracks.length ∧
        disc.duration = (disc.tracks.map (fun f => (dur f).getD 0 + gap)).sum ∧
        (cap < disc.duration + margin → disc.tracks.length = 1) := by
  induction pend with
  | nil =>
      intro cur curDur hpend hcur hsum hfit disc hdisc
      simp only [splitLoop] at hdisc
      by_cases he : cur.isEmpty = true
      · rw [if_pos he] at hdisc
        simp at hdisc
      · rw [if_neg he] at hdisc
        have hne : cur ≠ [] := by
          intro h0
          rw [h0] at he
          exact he rfl
        have hok := emitted_disc_ok cap margin gap dur cur curDur hcur hsum hfit hne
        rw [List.mem_singleton] at hdisc
        subst hdisc
        exact hok
  | cons p rest ih =>
      intro cur curDur hpend hcur hsum hfit disc hdisc
      obtain ⟨f, d⟩ := p
      have hpf : dur f = some d := hpend (f, d) (List.mem_cons_self _ _)
      have hpend2 : ∀ q ∈ rest, dur q.1 = some q.2 :=
        fun q hq => hpend q (List.mem_cons_of_mem _ hq)
      by_cases hc : cur.isEmpty = false ∧ cap < curDur + (d + gap) + margin
      · simp only [splitLoop, if_pos hc] at hdisc
        rcases List.mem_cons.mp hdisc with hEq | hmem
        · have hne : cur ≠ [] := by
            intro h0
            rw [h0] at hc
            exact absurd hc.1 (by simp)
          have hok := emitted_disc_ok cap margin gap dur cur curDur hcur hsum hfit hne
          subst hEq
          exact hok
        · refine ih [(f, d)] (d + gap) hpend2 ?_ (by simp) (by simp) disc hmem
          intro q hq
          rw [List.mem_singleton] at hq
          subst hq
          exact hpf
      · simp only [splitLoop, if_neg hc] at hdisc
        refine ih (cur ++ [(f, d)]) (curDur + (d + gap)) hpend2 ?_ ?_ ?_ disc hdisc
        · intro q hq
          rcases List.mem_append.mp hq with hq1 | hq2
          · exact hcur q hq1
          · rw [List.mem_singleton] at hq2
            subst hq2
            exact hpf
        · simp [hsum]
        · intro h2
          cases hcur0 : cur with
          | nil =>
              rw [hcur0] at h2
              simp at h2
          | cons q qs =>
              have hie : cur.isEmpty = false := by rw [hcur0]; rfl
              have hnlt : ¬ cap < curDur + (d + gap) + margin :=
                fun hlt => hc ⟨hie, hlt⟩
              exact not_lt.mp hnlt

/-- C2 (corrected): the safety margin used by `split_into_discs` is the
truncated int(0.02 * capacity) = capacity*2/100 (88 seconds for the
74-minute capacity, not 88.8); every disc in the plan is nonempty with
consistent stored fields, any disc whose duration plus this margin exceeds
the capacity holds exactly one track, and a track is flagged with the
"exceeds capacity" warning exactly when its own duration-plus-gap exceeds
the capacity itself (so a single-track disc may exceed capacity minus margin
without being flagged). -/
theorem C2_amended {α : Type} (dur : α → Option ℚ) (files : List α)
    (cap : ℕ) (g : Bool) :
    (∀ disc ∈ split_into_discs dur files cap g,
        disc.tracks ≠ [] ∧
        disc.track_count = disc.tracks.length ∧
        disc.duration = (disc.tracks.map
            (fun f => (dur f).getD 0 + (if g then DEFAULT_GAP_SECONDS else 0))).sum ∧
        ((cap : ℚ) < disc.duration + ((cap * 2 / 100 : ℕ) : ℚ) →
            disc.tracks.length = 1)) ∧
    (∀ f, f ∈ capacity_warnings dur files cap g ↔
        ∃ d, (f, d) ∈ file_durations dur files ∧
          (cap : ℚ) < d + (if g then DEFAULT_GAP_SECONDS else 0)) := by
  constructor
  · intro disc hdisc
    simp only [split_into_discs] at hdisc
    by_cases he : (file_durations dur files).isEmpty = true
    · rw [if_pos he] at hdisc
      simp at hdisc
    · rw [if_neg he] at hdisc
      exact splitLoop_inv (cap : ℚ) ((cap * 2 / 100 : ℕ) : ℚ)
        (if g then DEFAULT_GAP_SECONDS else 0) dur
        (file_durations dur files) [] 0
        (fun p hp => (file_durations_sound dur files p hp).1)
        (by simp) (by simp) (by simp) disc hdisc
  · intro f
    simp only [capacity_warnings, List.mem_map, List.mem_filter,
      decide_eq_true_eq]
    constructor
    · rintro ⟨⟨p1, p2⟩, ⟨hp, hlt⟩, rfl⟩
      exact ⟨p2, hp, hlt⟩
    · rintro ⟨d, hd, hlt⟩
      exact ⟨(f, d), ⟨hd, hlt⟩, rfl⟩

/-- Probe used in the C2 counterexample and witness. -/
def probe4400 : Unit → Option ℚ := fun _ => some 4400

/-- C2 counterexample: with the 74-minute capacity, a single track of
duration 4400 yields a one-disc plan whose disc duration 4402 satisfies
4402 + 88.8 > 4440 (88.8 being the 2 percent margin the claim states), yet
4402 does not itself exceed the capacity, so the disc is not covered by the
exception the claim allows, and the track is not flagged by any warning. -/
theorem C2_counterexample :
    split_into_discs probe4400 [()] CD_74_MIN_SECONDS true = [⟨[()], 4402, 1⟩] ∧
    (CD_74_MIN_SECONDS : ℚ) < 4402 + (2 / 100) * (CD_74_MIN_SECONDS : ℚ) ∧
    ¬ ((CD_74_MIN_SECONDS : ℚ) < 4402 ∧ True) ∧
    capacity_warnings probe4400 [()] CD_74_MIN_SECONDS true = [] := by
  refine ⟨?_, by norm_num [CD_74_MIN_SECONDS], by norm_num [CD_74_MIN_SECONDS], ?_⟩
  · norm_num [split_into_discs, splitLoop, file_durations, probe4400,
      DEFAULT_GAP_SECONDS, CD_74_MIN_SECONDS]
    exact ⟨(), by simp⟩
  · norm_num [capacity_warnings, file_durations, probe4400,
      DEFAULT_GAP_SECONDS, CD_74_MIN_SECONDS]

theorem C2_amended_witness :
    (⟨[()], (4400 : ℚ), 1⟩ : Disc Unit).tracks ≠ [] :=
  ((C2_amended probe4400 [()] CD_74_MIN_SECONDS false).1
    ⟨[()], 4400, 1⟩ (by simp [split_into_discs, splitLoop, file_durations,
      probe4400, CD_74_MIN_SECONDS])).1

/-- The dictionary returned by `calculate_disc_capacity` (lines 3294-3307). -/
structure CapacityInfo (α : Type) where
  total_seconds : ℚ
  remaining_seconds : ℚ
  cd_capacity : ℕ
  cd_size : ℕ
  percent_used : ℚ
  track_count : ℕ
  track_durations : List (α × ℚ)
  failed_files : List α
  fits_on_disc : Bool
  gap_time : ℚ

/-- `AudioCDWriter.calculate_disc_capacity` (lines 3248-3307).  Durations that
probe to `None` go to `failed_files` and contribute nothing (here the check is
`is not None`, so a 0.0 duration is counted); the optional gap list is summed
only when it is truthy (non-`None` and non-empty); the capacity is 4800
seconds when `cd_size = 80` and 4440 seconds otherwise; `remaining_seconds`
is capacity minus total with no margin applied, and
`fits_on_disc = (remaining_seconds >= 0)`. -/
def calculate_disc_capacity {α : Type} (dur : α → Option ℚ)
    (audio_files : List α) (cd_size : ℕ) (gaps : Option (List ℚ)) :
    CapacityInfo α :=
  let track_durations := audio_files.filterMap
    (fun f => (dur f).map (fun d => (f, d)))
  let failed_files := audio_files.filter (fun f => (dur f).isNone)
  let gap_time : ℚ := match gaps with
    | none => 0
    | some gs => if gs.isEmpty then 0 else gs.sum
  let total_seconds := (track_durations.map Prod.snd).sum + gap_time
  let cd_capacity := if cd_size = 80 then CD_80_MIN_SECONDS else CD_74_MIN_SECONDS
  let remaining_seconds := (cd_capacity : ℚ) - total_seconds
  { total_seconds := total_seconds
    remaining_seconds := remaining_seconds
    cd_capacity := cd_capacity
    cd_size := cd_size
    percent_used := total_seconds / (cd_capacity : ℚ) * 100
    track_count := audio_files.length
    track_durations := track_durations
    failed_files := failed_files
    fits_on_disc := decide (0 ≤ remaining_seconds)
    gap_time := gap_time }

/-- C3 (corrected): `calculate_disc_capacity` applies no safety margin at
all: `remaining_seconds` is capacity minus total, and `fits_on_disc` is true
exactly when the total seconds used (audio plus gaps) is at most the full
capacity. -/
theorem C3_amended {α : Type} (dur : α → Option ℚ) (files : List α)
    (cd_size : ℕ) (gaps : Option (List ℚ)) :
    (calculate_disc_capacity dur files cd_size gaps).remaining_seconds =
      ((calculate_disc_capacity dur files cd_size gaps).cd_capacity : ℚ) -
        (calculate_disc_capacity dur files cd_size gaps).total_seconds ∧
    ((calculate_disc_capacity dur files cd_size gaps).fits_on_disc = true ↔
      (calculate_disc_capacity dur files cd_size gaps).total_seconds ≤
        ((calculate_disc_capacity dur files cd_size gaps).cd_capacity : ℚ)) := by
  constructor
  · rfl
  · simp only [calculate_disc_capacity, decide_eq_true_eq]
    constructor
    · intro h
      linarith
    · intro h
      linarith

/-- Probe used in the C3 counterexample: one 4790-second file. -/
def probe4790 : Unit → Option ℚ := fun _ => some 4790

/-- C3 counterexample: a single 4790-second track on an 80-minute disc.
The code reports `fits_on_disc = true` (4790 is at most the 4800-second
capacity), yet 4790 exceeds capacity minus the 2 percent margin
(4800 - 96 = 4704), so the claimed margin-adjusted criterion is violated. -/
theorem C3_counterexample :
    (calculate_disc_capacity probe4790 [()] 80 none).fits_on_disc = true ∧
    ¬ ((calculate_disc_capacity probe4790 [()] 80 none).total_seconds ≤
        4800 - (2 / 100) * 4800) := by
  constructor
  · norm_num [calculate_disc_capacity, probe4790, CD_80_MIN_SECONDS,
      List.filterMap_cons]
  · norm_num [calculate_disc_capacity, probe4790, CD_80_MIN_SECONDS,
      List.filterMap_cons]

/-- Python int() applied to a rational: truncation toward zero. -/
def pyInt (q : ℚ) : ℤ := if 0 ≤ q then ⌊q⌋ else ⌈q⌉

/-- Sum of the decimal digits of `str(seconds)` (line 1380,
`sum(int(d) for d in str(seconds))`) for a nonnegative integer.  All offsets
are nonnegative whenever the probed durations are nonnegative; negative
durations are programmer error per the spec (section 7). -/
def digit_sum_int (z : ℤ) : ℕ := (Nat.digits 10 z.toNat).sum

/-- Python `f"{x:08x}"` for a nonnegative integer: lowercase hexadecimal,
left-padded with zeros to at least eight characters. -/
def toHex8 (n : ℕ) : String :=
  let s := String.mk (Nat.toDigits 16 n)
  String.mk (List.replicate (8 - s.length) '0') ++ s

/-- The offset-accumulation loop of `calculate_disc_id` (lines 1361-1371):
starting from `track_offsets = [150]` and `total_frames = 150`, each file is
probed; a duration that resolves to `None` aborts the whole computation,
otherwise `int(duration * 75)` frames are added to the running total, which
is appended to the offset list. -/
def discIdLoop {α : Type} (dur : α → Option ℚ) :
    List α → List ℤ → ℤ → Option (List ℤ × ℤ)
  | [], offsets, total => some (offsets, total)
  | f :: rest, offsets, total =>
      match dur f with
      | none => none
      | some d =>
          let frames := pyInt (d * 75)
          discIdLoop dur rest (offsets ++ [total + frames]) (total + frames)

/-- `AudioCDWriter.calculate_disc_id` (lines 1350-1390): the freedb/CDDB disc
identifier of the probed durations as an `%08x`-formatted lowercase hex
string, or `none` when any duration fails to resolve.  `disc_length.toNat`
embeds the nonnegative Python integer `disc_length`. -/
def calculate_disc_id {α : Type} (dur : α → Option ℚ) (wav_files : List α) :
    Option String :=
  match discIdLoop dur wav_files [150] 150 with
  | none => none
  | some (track_offsets, total_frames) =>
      let disc_length := Int.fdiv total_frames 75
      let n := (track_offsets.dropLast.map
        (fun off => digit_sum_int (Int.fdiv off 75))).sum
      let num_tracks := wav_files.length
      some (toHex8 (((n % 255) <<< 24) ||| (disc_length.toNat <<< 8) ||| num_tracks))

/-- The internal `track_offsets` list of `calculate_disc_id`, including the
final lead-out entry. -/
def disc_id_offsets {α : Type} (dur : α → Option ℚ) (wav_files : List α) :
    Option (List ℤ) :=
  (discIdLoop dur wav_files [150] 150).map Prod.fst

/-- Offset table as the claim words it: offsets begin at 150 frames and each
track contributes floor(duration * 75) frames. -/
def cddbOffsets (ds : List ℚ) : List ℤ :=
  ds.scanl (fun t d => t + ⌊d * 75⌋) 150

/-- Total frame count as the claim words it. -/
def cddbTotalFrames (ds : List ℚ) : ℤ :=
  150 + (ds.map (fun d => (⌊d * 75⌋ : ℤ))).sum

/-- discLengthSeconds = totalFrames div 75, as the claim words it. -/
def cddbDiscLength (ds : List ℚ) : ℤ := Int.fdiv (cddbTotalFrames ds) 75

/-- Checksum as the claim words it: the sum of the decimal digits of
(offset div 75) over all offsets except the final lead-out entry. -/
def cddbChecksum (ds : List ℚ) : ℕ :=
  ((cddbOffsets ds).dropLast.map (fun off => digit_sum_int (Int.fdiv off 75))).sum

/-- Identifier value as the claim words it:
((checksum mod 255) shifted left 24) or (discLengthSeconds shifted left 8)
or trackCount. -/
def cddbIdValue (ds : List ℚ) : ℕ :=
  ((cddbChecksum ds % 255) <<< 24) ||| ((cddbDiscLength ds).toNat <<< 8) |||
    ds.length

lemma pyInt_eq_floor (q : ℚ) (h : 0 ≤ q) : pyInt q = ⌊q⌋ := if_pos h

/-- Folding addition over a list is adding the sum. -/
lemma foldl_add_map_sum (F : ℚ → ℤ) :
    ∀ (ds : List ℚ) (t : ℤ),
      ds.foldl (fun a d => a + F d) t = t + (ds.map F).sum := by
  intro ds
  induction ds with
  | nil => intro t; simp
  | cons d ds2 ih =>
      intro t
      simp only [List.foldl_cons, List.map_cons, List.sum_cons, ih]
      ring

/-- Closed form of the offset-accumulation loop when every file probes. -/
lemma discIdLoop_eq {α : Type} (dur : α → Option ℚ) :
    ∀ (files : List α) (ds : List ℚ), files.map dur = ds.map some →
      ∀ (pre : List ℤ) (t : ℤ),
        discIdLoop dur files (pre ++ [t]) t =
          some (pre ++ ds.scanl (fun a d => a + pyInt (d * 75)) t,
                ds.foldl (fun a d => a + pyInt (d * 75)) t) := by
  intro files
  induction files with
  | nil =>
      intro ds h pre t
      cases ds with
      | nil => simp [discIdLoop]
      | cons d ds2 => simp at h
  | cons f fs ih =>
      intro ds h pre t
      cases ds with
      | nil => simp at h
      | cons d ds2 =>
          simp only [List.map_cons, List.cons.injEq] at h
          obtain ⟨h1, h2⟩ := h
          simp only [discIdLoop, h1]
          have hrec := ih ds2 h2 (pre ++ [t]) (t + pyInt (d * 75))
          rw [hrec]
          simp [List.scanl_cons]

/-- Replacing Python truncation by floor in the scan, for nonnegative
durations. -/
lemma scanl_pyInt_floor :
    ∀ (ds : List ℚ) (t : ℤ), (∀ d ∈ ds, 0 ≤ d) →
      ds.scanl (fun a d => a + pyInt (d * 75)) t =
        ds.scanl (fun a d => a + ⌊d * 75⌋) t := by
  intro ds
  induction ds with
  | nil => intro t _; rfl
  | cons d ds2 ih =>
      intro t h
      have hd : (0 : ℚ) ≤ d := h d (List.mem_cons_self d ds2)
      have : pyInt (d * 75) = ⌊d * 75⌋ :=
        pyInt_eq_floor _ (by positivity)
      simp only [List.scanl_cons, this]
      rw [ih _ (fun q hq => h q (List.mem_cons_of_mem d hq))]

/-- The source computation agrees with the claim formula whenever every
duration resolves and is nonnegative. -/
lemma calculate_disc_id_spec {α : Type} (dur : α → Option ℚ)
    (files : List α) (ds : List ℚ) (h : files.map dur = ds.map some)
    (hnn : ∀ d ∈ ds, 0 ≤ d) :
    calculate_disc_id dur files = some (toHex8 (cddbIdValue ds)) ∧
    disc_id_offsets dur files = some (cddbOffsets ds) := by
  have hlen : files.length = ds.length := by
    have := congrArg List.length h
    simpa using this
  have hloop := discIdLoop_eq dur files ds h [] 150
  simp only [List.nil_append] at hloop
  have hscan := scanl_pyInt_floor ds 150 hnn
  have hmap : ds.map (fun d => pyInt (d * 75)) =
      ds.map (fun d => (⌊d * 75⌋ : ℤ)) := by
    apply List.map_congr_left
    intro d hd
    exact pyInt_eq_floor _ (mul_nonneg (hnn d hd) (by norm_num))
  have htot : ds.foldl (fun a d => a + pyInt (d * 75)) 150 =
      cddbTotalFrames ds := by
    rw [foldl_add_map_sum, hmap]
    rfl
  constructor
  · simp only [calculate_disc_id, hloop, htot, hscan]
    rw [hlen]
    rfl
  · simp only [disc_id_offsets, hloop, Option.map_some]
    rw [hscan]
    rfl

/-- C4 (confirmed): for every file list whose durations all resolve to
nonnegative values, `calculate_disc_id` returns exactly the CDDB identifier
of the claim formula rendered as at-least-8-digit lowercase hex (exactly 8
digits for values below 2^32), its internal offset table starts at 150 and
accumulates floor(duration*75) per track, and any two inputs probing to the
identical duration list yield the identical identifier string and offset
list. -/
theorem C4_disc_id {α : Type} (dur : α → Option ℚ) (files : List α)
    (ds : List ℚ) (h : files.map dur = ds.map some)
    (hnn : ∀ d ∈ ds, 0 ≤ d) :
    calculate_disc_id dur files = some (toHex8 (cddbIdValue ds)) ∧
    disc_id_offsets dur files = some (cddbOffsets ds) ∧
    (∀ (dur2 : α → Option ℚ) (files2 : List α),
        files2.map dur2 = ds.map some →
        calculate_disc_id dur2 files2 = calculate_disc_id dur files ∧
        disc_id_offsets dur2 files2 = disc_id_offsets dur files) := by
  obtain ⟨hid, hoff⟩ := calculate_disc_id_spec dur files ds h hnn
  refine ⟨hid, hoff, ?_⟩
  intro dur2 files2 h2
  obtain ⟨hid2, hoff2⟩ := calculate_disc_id_spec dur2 files2 ds h2 hnn
  rw [hid, hoff, hid2, hoff2]
  exact ⟨rfl, rfl⟩

/-- Probe used in the C4 witness: a single 180-second track. -/
def probe180 : Unit → Option ℚ := fun _ => some 180

theorem C4_disc_id_witness :
    calculate_disc_id probe180 [()] = some (toHex8 (cddbIdValue [180])) :=
  (C4_disc_id probe180 [()] [180] rfl (by
    intro d hd
    rw [List.mem_singleton] at hd
    subst hd
    decide)).1

/-- Burn-job status (`BurnJob.status`, line 620): pending, completed, failed
or skipped.  `get_next_job` reads no other job field, so a job is abstracted
to its status. -/
inductive JobStatus
  | pending
  | completed
  | failed
  | skipped
deriving DecidableEq, Repr

/-- A status is terminal when it is not pending. -/
def JobStatus.isTerminal : JobStatus → Bool
  | .pending => false
  | _ => true

/-- `BatchBurnQueue` (lines 638-641): the job list and the scan cursor
`current_job_index`. -/
structure BatchBurnQueue where
  jobs : List JobStatus
  current_job_index : ℕ
deriving DecidableEq, Repr

/-- Scan of a job-list suffix for the first pending entry, carrying the
absolute index of its head. -/
def scanFrom : List JobStatus → ℕ → Option ℕ
  | [], _ => none
  | s :: rest, i =>
      if s = JobStatus.pending then some i else scanFrom rest (i + 1)

/-- The scan `for i in range(current_job_index, len(jobs))` of
`get_next_job` (lines 662-665): the first index at or after `i` holding a
pending job. -/
def scanPending (jobs : List JobStatus) (i : ℕ) : Option ℕ :=
  scanFrom (jobs.drop i) i

/-- `BatchBurnQueue.get_next_job` (lines 660-666): returns the first pending
index at or after the cursor and moves the cursor there; returns `none` and
leaves the cursor when the scan is exhausted. -/
def get_next_job (q : BatchBurnQueue) : Option ℕ × BatchBurnQueue :=
  match scanPending q.jobs q.current_job_index with
  | some i => (some i, { q with current_job_index := i })
  | none => (none, q)

/-- One externally driven step on the queue, per the claim hypothesis: a
`get_next_job` call, or a transition of one job from pending to a terminal
status.  Jobs are never added, removed or reordered. -/
inductive QueueEvent
  | call
  | finish (i : ℕ) (s : JobStatus)
deriving DecidableEq, Repr

/-- Apply one event; a `finish` event only fires on an in-range pending job
and a terminal target status, which is exactly the mutation the claim
allows the execution loop. -/
def applyEvent (q : BatchBurnQueue) : QueueEvent → Option ℕ × BatchBurnQueue
  | .call => get_next_job q
  | .finish i s =>
      if h : i < q.jobs.length then
        if q.jobs.get ⟨i, h⟩ = JobStatus.pending ∧ s.isTerminal = true then
          (none, ⟨q.jobs.set i s, q.current_job_index⟩)
        else (none, q)
      else (none, q)

/-- The indices returned by `get_next_job` along a sequence of events. -/
def runEvents (q : BatchBurnQueue) : List QueueEvent → List ℕ
  | [] => []
  | e :: es =>
      ((applyEvent q e).1).toList ++ runEvents (applyEvent q e).2 es

lemma scanFrom_le :
    ∀ (l : List JobStatus) (i j : ℕ), scanFrom l i = some j → i ≤ j := by
  intro l
  induction l with
  | nil => intro i j h; simp [scanFrom] at h
  | cons s rest ih =>
      intro i j h
      by_cases hs : s = JobStatus.pending
      · rw [scanFrom, if_pos hs, Option.some.injEq] at h
        omega
      · rw [scanFrom, if_neg hs] at h
        have := ih (i + 1) j h
        omega

lemma scanFrom_none (l : List JobStatus) (h : ∀ s ∈ l, s ≠ JobStatus.pending) :
    ∀ i, scanFrom l i = none := by
  induction l with
  | nil => intro i; rfl
  | cons s rest ih =>
      intro i
      rw [scanFrom, if_neg (h s (List.mem_cons_self s rest))]
      exact ih (fun t ht => h t (List.mem_cons_of_mem s ht)) (i + 1)

lemma scanPending_le (jobs : List JobStatus) (i j : ℕ)
    (h : scanPending jobs i = some j) : i ≤ j :=
  scanFrom_le _ i j h

/-- The cursor never moves backward, whatever the event. -/
lemma applyEvent_cursor_mono (q : BatchBurnQueue) (e : QueueEvent) :
    q.current_job_index ≤ (applyEvent q e).2.current_job_index := by
  cases e with
  | call =>
      simp only [applyEvent, get_next_job]
      cases hs : scanPending q.jobs q.current_job_index with
      | none => exact le_refl _
      | some i => exact scanPending_le _ _ _ hs
  | finish i s =>
      by_cases h : i < q.jobs.length
      · simp only [applyEvent, dif_pos h]
        by_cases hp : q.jobs.get ⟨i, h⟩ = JobStatus.pending ∧ s.isTerminal = true
        · rw [if_pos hp]
        · rw [if_neg hp]
      · simp only [applyEvent, dif_neg h]
        exact le_refl _

/-- A returned index equals the new cursor and is at least the old cursor. -/
lemma applyEvent_ret (q : BatchBurnQueue) (e : QueueEvent) (j : ℕ)
    (h : (applyEvent q e).1 = some j) :
    j = (applyEvent q e).2.current_job_index ∧ q.current_job_index ≤ j := by
  cases e with
  | call =>
      simp only [applyEvent, get_next_job] at h ⊢
      cases hs : scanPending q.jobs q.current_job_index with
      | none => rw [hs] at h; simp at h
      | some i =>
          rw [hs] at h
          simp only [Option.some.injEq] at h
          subst h
          exact ⟨rfl, scanPending_le _ _ _ hs⟩
  | finish i s =>
      by_cases hlt : i < q.jobs.length
      · simp only [applyEvent, dif_pos hlt] at h
        by_cases hp : q.jobs.get ⟨i, hlt⟩ = JobStatus.pending ∧ s.isTerminal = true
        · rw [if_pos hp] at h; simp at h
        · rw [if_neg hp] at h; simp at h
      · simp only [applyEvent, dif_neg hlt] at h
        simp at h

/-- Every index ever returned is at least the cursor at the start. -/
lemma runEvents_lb :
    ∀ (es : List QueueEvent) (q : BatchBurnQueue) (j : ℕ),
      j ∈ runEvents q es → q.current_job_index ≤ j := by
  intro es
  induction es with
  | nil => intro q j h; simp [runEvents] at h
  | cons e rest ih =>
      intro q j h
      rw [runEvents, List.mem_append] at h
      rcases h with h1 | h2
      · cases hr : (applyEvent q e).1 with
        | none => rw [hr] at h1; simp at h1
        | some k =>
            rw [hr] at h1
            simp only [Option.toList_some, List.mem_singleton] at h1
            subst h1
            exact (applyEvent_ret q e j hr).2
      · exact le_trans (applyEvent_cursor_mono q e) (ih _ j h2)

/-- C7 (confirmed): across any sequence of `get_next_job` calls interleaved
with transitions of jobs from pending to a terminal status (no job added or
removed), the indices returned by `get_next_job` never decrease; and once
every job is non-pending, `get_next_job` returns none. -/
theorem C7_queue_monotone (q : BatchBurnQueue) (es : List QueueEvent) :
    (runEvents q es).Pairwise (· ≤ ·) ∧
    ((∀ s ∈ q.jobs, s ≠ JobStatus.pending) → (get_next_job q).1 = none) := by
  constructor
  · induction es generalizing q with
    | nil => simp [runEvents]
    | cons e rest ih =>
        rw [runEvents]
        cases hr : (applyEvent q e).1 with
        | none => simpa using ih (applyEvent q e).2
        | some j =>
            simp only [Option.toList_some, List.singleton_append,
              List.pairwise_cons]
            refine ⟨?_, ih (applyEvent q e).2⟩
            intro x hx
            have hx2 := runEvents_lb rest (applyEvent q e).2 x hx
            have hj := (applyEvent_ret q e j hr).1
            omega
  · intro h
    have hnone : scanPending q.jobs q.current_job_index = none :=
      scanFrom_none _ (fun s hs => h s (List.drop_subset _ _ hs)) _
    simp [get_next_job, hnone]

/-- Queue used in the C7 witness: all jobs already terminal. -/
def qDone : BatchBurnQueue :=
  ⟨[JobStatus.completed, JobStatus.failed, JobStatus.skipped], 0⟩

theorem C7_queue_monotone_witness : (get_next_job qDone).1 = none :=
  (C7_queue_monotone qDone []).2 (by decide)

example :
    runEvents ⟨[JobStatus.pending, JobStatus.pending, JobStatus.pending,
        JobStatus.pending], 0⟩
      [QueueEvent.call, QueueEvent.finish 0 JobStatus.completed,
       QueueEvent.call, QueueEvent.finish 1 JobStatus.failed,
       QueueEvent.call] = [0, 1, 2] := by decide

/-- Python `f"{n:02d}"`: decimal digits, left-padded with zeros to width 2
(wider numbers keep all their digits). -/
def pad2 (n : ℕ) : String :=
  let s := Nat.repr n
  String.mk (List.replicate (2 - s.length) '0') ++ s

/-- `AudioCDWriter.frames_to_msf` (lines 3017-3032): minutes, then the
remainder split into whole seconds and leftover frames, each rendered
`%02d` and joined with colons. -/
def frames_to_msf (frames : ℕ) : String :=
  let minutes := frames / (75 * 60)
  let r1 := frames % (75 * 60)
  let seconds := r1 / 75
  let r2 := r1 % 75
  pad2 minutes ++ ":" ++ pad2 seconds ++ ":" ++ pad2 r2

lemma pad2_length_of_lt : ∀ n < 100, (pad2 n).length = 2 := by decide

/-- C8 (corrected): `frames_to_msf` output has exactly 8 characters only while
the minute field stays below 100, that is, for frame counts below
450000 = 75*60*100; in that range the output is the two-digit zero-padded
minute, second and frame fields joined by colons, with 0 <= seconds < 60 and
0 <= frames < 75, and frames_to_msf (75*60*2 + 75*3 + 37) = "02:03:37". -/
theorem C8_amended (f : ℕ) (h : f < 450000) :
    (frames_to_msf f).length = 8 ∧
    frames_to_msf f =
      pad2 (f / 4500) ++ ":" ++ pad2 (f % 4500 / 75) ++ ":" ++
        pad2 (f % 4500 % 75) ∧
    f / 4500 < 100 ∧ f % 4500 / 75 < 60 ∧ f % 4500 % 75 < 75 ∧
    frames_to_msf (75 * 60 * 2 + 75 * 3 + 37) = "02:03:37" := by
  have hm : f / 4500 < 100 := by omega
  have hs : f % 4500 / 75 < 60 := by omega
  have hr : f % 4500 % 75 < 75 := by omega
  refine ⟨?_, rfl, hm, hs, hr, by decide⟩
  simp only [frames_to_msf, String.length_append]
  rw [pad2_length_of_lt _ hm, pad2_length_of_lt _ (by omega),
    pad2_length_of_lt _ (by omega)]
  rfl

/-- C8 counterexample: at 450000 frames (100 minutes) the minute field takes
three digits and the output has 9 characters, not 8. -/
theorem C8_counterexample :
    frames_to_msf 450000 = "100:00:00" ∧ (frames_to_msf 450000).length ≠ 8 := by
  constructor
  · decide
  · decide

theorem C8_amended_witness : (frames_to_msf 9262).length = 8 :=
  (C8_amended 9262 (by decide)).1

/-- Python `text.encode('ascii', 'replace').decode('ascii')` character map
(line 2991): code points above 127 become a question mark. -/
def asciiReplace (c : Char) : Char := if c.toNat ≤ 127 then c else '?'

/-- Line 2994, `text.replace('"', "'")`: the double quote (code 34) becomes a
single quote (code 39). -/
def quoteReplace (c : Char) : Char :=
  if c = Char.ofNat 34 then Char.ofNat 39 else c

/-- Line 2995: newline becomes a space. -/
def nlReplace (c : Char) : Char := if c = '\n' then ' ' else c

/-- Line 2996: carriage return becomes a space. -/
def crReplace (c : Char) : Char := if c = '\r' then ' ' else c

/-- Line 2997: tab becomes a space. -/
def tabReplace (c : Char) : Char := if c = '\t' then ' ' else c

/-- The four replacements of `sanitize_cdtext` composed in source order. -/
def sanitizeChar (c : Char) : Char :=
  tabReplace (crReplace (nlReplace (quoteReplace (asciiReplace c))))

/-- Python slice `s[:k]` for an integer `k`: the first `k` characters when
`0 <= k`, everything but the last `-k` characters when `k < 0` (empty when
`-k` reaches the length). -/
def pySlicePrefix (s : List Char) (k : ℤ) : List Char :=
  if 0 ≤ k then s.take k.toNat else s.take (s.length - (-k).toNat)

/-- `AudioCDWriter.sanitize_cdtext` (lines 2975-3003) on Python strings
embedded as character lists: empty (falsy) text maps to the empty string,
the ASCII, quote and whitespace replacements are applied charwise in source
order, and text still longer than `max_length` is cut to
`text[:max_length-3]` with a three-dot ellipsis appended. -/
def sanitize_cdtext (text : List Char) (max_length : ℕ) : List Char :=
  if text.isEmpty then []
  else
    let t1 := text.map asciiReplace
    let t2 := t1.map quoteReplace
    let t3 := t2.map nlReplace
    let t4 := t3.map crReplace
    let t5 := t4.map tabReplace
    if max_length < t5.length then
      pySlicePrefix t5 ((max_length : ℤ) - 3) ++ "...".data
    else t5

/-- A character that every sanitization step leaves unchanged: ASCII, not a
double quote, newline, carriage return or tab. -/
def cleanChar (c : Char) : Prop :=
  c.toNat ≤ 127 ∧ c ≠ Char.ofNat 34 ∧ c ≠ '\n' ∧ c ≠ '\r' ∧ c ≠ '\t'

instance (c : Char) : Decidable (cleanChar c) := by
  unfold cleanChar
  infer_instance

lemma map_sanitizeChar :
    ∀ t : List Char,
      ((((t.map asciiReplace).map quoteReplace).map nlReplace).map
        crReplace).map tabReplace = t.map sanitizeChar := by
  intro t
  induction t with
  | nil => rfl
  | cons c l ih =>
      simp only [List.map_cons]
      rw [ih]
      unfold sanitizeChar
      rfl

lemma sanitizeChar_clean (c : Char) : cleanChar (sanitizeChar c) := by
  by_cases h1 : c.toNat ≤ 127
  · by_cases h2 : c = Char.ofNat 34
    · subst h2; decide
    · by_cases h3 : c = '\n'
      · subst h3; decide
      · by_cases h4 : c = '\r'
        · subst h4; decide
        · by_cases h5 : c = '\t'
          · subst h5; decide
          · have hid : sanitizeChar c = c := by
              unfold sanitizeChar asciiReplace quoteReplace nlReplace
                crReplace tabReplace
              rw [if_pos h1, if_neg h2, if_neg h3, if_neg h4, if_neg h5]
            rw [hid]
            exact ⟨h1, h2, h3, h4, h5⟩
  · have ha : asciiReplace c = '?' := if_neg h1
    have hq : sanitizeChar c = '?' := by
      unfold sanitizeChar
      rw [ha]
      decide
    rw [hq]
    decide

lemma sanitizeChar_id (c : Char) (h : cleanChar c) : sanitizeChar c = c := by
  obtain ⟨h1, h2, h3, h4, h5⟩ := h
  unfold sanitizeChar asciiReplace quoteReplace nlReplace crReplace tabReplace
  rw [if_pos h1, if_neg h2, if_neg h3, if_neg h4, if_neg h5]

lemma pySlicePrefix_subset (s : List Char) (k : ℤ) : pySlicePrefix s k ⊆ s := by
  unfold pySlicePrefix
  by_cases h : 0 ≤ k
  · rw [if_pos h]; exact List.take_subset _ _
  · rw [if_neg h]; exact List.take_subset _ _

/-- Normal form of `sanitize_cdtext` on non-empty text. -/
lemma sanitize_cdtext_of_ne (t : List Char) (m : ℕ) (h : t ≠ []) :
    sanitize_cdtext t m =
      if m < t.length then
        pySlicePrefix (t.map sanitizeChar) ((m : ℤ) - 3) ++ "...".data
      else t.map sanitizeChar := by
  have he : t.isEmpty = false := by
    cases t with
    | nil => exact absurd rfl h
    | cons a l => rfl
  simp only [sanitize_cdtext, he, Bool.false_eq_true, if_false,
    map_sanitizeChar, List.length_map]

lemma dots_clean : ∀ c ∈ "...".data, cleanChar c := by decide

/-- Every character emitted by the sanitizer is clean: ASCII and free of
double quotes, newlines, carriage returns and tabs. -/
lemma sanitize_cdtext_clean (t : List Char) (m : ℕ) :
    ∀ c ∈ sanitize_cdtext t m, cleanChar c := by
  intro c hc
  by_cases ht : t = []
  · subst ht
    simp [sanitize_cdtext] at hc
  · rw [sanitize_cdtext_of_ne t m ht] at hc
    by_cases hlen : m < t.length
    · rw [if_pos hlen] at hc
      rcases List.mem_append.mp hc with h1 | h2
      · obtain ⟨x, _, rfl⟩ := List.mem_map.mp (pySlicePrefix_subset _ _ h1)
        exact sanitizeChar_clean x
      · exact dots_clean c h2
    · rw [if_neg hlen] at hc
      obtain ⟨x, _, rfl⟩ := List.mem_map.mp hc
      exact sanitizeChar_clean x

/-- A clean string no longer than its limit is a fixpoint of the sanitizer. -/
lemma sanitize_cdtext_fix (r : List Char) (m : ℕ)
    (hclean : ∀ c ∈ r, cleanChar c) (hlen : r.length ≤ m) :
    sanitize_cdtext r m = r := by
  by_cases hr : r = []
  · subst hr
    rfl
  · rw [sanitize_cdtext_of_ne r m hr, if_neg (not_lt.mpr hlen)]
    have hmap : r.map sanitizeChar = r.map id :=
      List.map_congr_left (fun c hcm => sanitizeChar_id c (hclean c hcm))
    simpa using hmap

/-- Length of the sanitizer output for a limit of at least 3: at most the
limit, exactly the limit when truncation occurs. -/
lemma sanitize_cdtext_length (t : List Char) (m : ℕ) (h3 : 3 ≤ m) :
    (sanitize_cdtext t m).length ≤ m ∧
    (m < t.length → (sanitize_cdtext t m).length = m) := by
  by_cases ht : t = []
  · subst ht
    refine ⟨by simp [sanitize_cdtext], ?_⟩
    intro h
    simp at h
  · rw [sanitize_cdtext_of_ne t m ht]
    by_cases hlen : m < t.length
    · rw [if_pos hlen]
      have hk : (0 : ℤ) ≤ (m : ℤ) - 3 := by omega
      have hslice : pySlicePrefix (t.map sanitizeChar) ((m : ℤ) - 3) =
          (t.map sanitizeChar).take (m - 3) := by
        unfold pySlicePrefix
        rw [if_pos hk]
        congr 1
        omega
      rw [hslice]
      have htake : ((t.map sanitizeChar).take (m - 3)).length = m - 3 := by
        rw [List.length_take, List.length_map]
        omega
      have hdots : ("...".data).length = 3 := rfl
      constructor
      · rw [List.length_append, htake, hdots]
        omega
      · intro _
        rw [List.length_append, htake, hdots]
        omega
    · rw [if_neg hlen]
      refine ⟨by rw [List.length_map]; omega, ?_⟩
      intro hc
      exact absurd hc hlen

/-- C9 (confirmed): with the default 80-character limit, applying
`sanitize_cdtext` twice produces the same result as applying it once. -/
theorem C9_sanitize_idempotent (t : List Char) :
    sanitize_cdtext (sanitize_cdtext t 80) 80 = sanitize_cdtext t 80 :=
  sanitize_cdtext_fix _ 80 (sanitize_cdtext_clean t 80)
    (sanitize_cdtext_length t 80 (by omega)).1

/-- C10 (corrected): for every limit of at least 3 characters the sanitizer
output is never longer than the limit, when truncation occurs the output is
exactly `max_length` characters ending in the three-dot ellipsis, and empty
text maps to the empty string.  For limits below 3 the bound fails, see the
counterexample. -/
theorem C10_amended (t : List Char) (m : ℕ) (h3 : 3 ≤ m) :
    (sanitize_cdtext t m).length ≤ m ∧
    (m < t.length →
      (sanitize_cdtext t m).length = m ∧
      (sanitize_cdtext t m).drop (m - 3) = "...".data) ∧
    sanitize_cdtext [] m = [] := by
  refine ⟨(sanitize_cdtext_length t m h3).1, ?_, rfl⟩
  intro hlen
  refine ⟨(sanitize_cdtext_length t m h3).2 hlen, ?_⟩
  have ht : t ≠ [] := by
    intro h0
    rw [h0] at hlen
    simp at hlen
  rw [sanitize_cdtext_of_ne t m ht, if_pos hlen]
  have hk : (0 : ℤ) ≤ (m : ℤ) - 3 := by omega
  have hslice : pySlicePrefix (t.map sanitizeChar) ((m : ℤ) - 3) =
      (t.map sanitizeChar).take (m - 3) := by
    unfold pySlicePrefix
    rw [if_pos hk]
    congr 1
    omega
  rw [hslice]
  have htake : ((t.map sanitizeChar).take (m - 3)).length = m - 3 := by
    rw [List.length_take, List.length_map]
    omega
  exact List.drop_left' htake

/-- C10 counterexample: with `max_length = 1` and the two-character text
"ab", Python computes text[:1-3] + "..." = "ab"[:-2] + "..." = "...", which
has 3 > 1 characters: the ellipsis overshoots limits below 3. -/
theorem C10_counterexample :
    sanitize_cdtext "ab".data 1 = "...".data ∧
    1 < (sanitize_cdtext "ab".data 1).length := by
  constructor
  · decide
  · decide

theorem C10_amended_witness :
    (sanitize_cdtext "abcdefgh".data 5).length = 5 :=
  ((C10_amended "abcdefgh".data 5 (by decide)).2.1 (by decide)).1

/-- Readback length text of one CD track, partitioned by the parser of
`_verify_standard` (lines 1079-1099): text with a colon parses as minutes
before the first colon and whole seconds between the colon and the dot (the
frame part after the dot is discarded); other text parses as a plain numeric
seconds value; anything else raises inside the try block, which skips the
track. -/
inductive LengthText
  | msf (minutes seconds frames : ℕ)
  | secs (value : ℚ)
  | unparsable
deriving DecidableEq, Repr

/-- The parsed CD track duration (`cd_duration`, lines 1081-1088), `none`
when parsing raises. -/
def cdDuration : LengthText → Option ℚ
  | .msf m s _ => some ((m : ℚ) * 60 + (s : ℚ))
  | .secs v => some v
  | .unparsable => none

/-- One track as reported by `read_audio_cd_tracks` (lines 3571-3575): its
number and its length text. -/
structure ReadbackTrack where
  number : ℕ
  length : LengthText
deriving DecidableEq, Repr

/-- Outcome of ripping one track during full verification: the rip command
fails (returncode nonzero, line 1164), the checksum of the ripped file
cannot be computed (line 1178), or a SHA-256 checksum is produced. -/
inductive RipOutcome
  | ripFailed
  | checksumFailed
  | ripped (checksum : String)
deriving DecidableEq, Repr

/-- The disc-reader collaborators of verification: whether `cdparanoia` is
installed (the `which cdparanoia` check of `_verify_full`, lines 1121-1126),
the track list returned by `read_audio_cd_tracks` (empty when the disc is
unreadable or the reader is missing), and the per-track-number rip outcome
used by `_verify_full`. -/
structure DiscReader where
  cdparanoiaAvailable : Bool
  tracks : List ReadbackTrack
  rip : ℕ → RipOutcome

/-- `AudioCDWriter._verify_quick` (lines 1010-1037): readable disc and
matching track count. -/
def verify_quick {α : Type} (r : DiscReader)
    (original_wav_files : List α) : Bool :=
  if r.tracks.isEmpty then false
  else decide (original_wav_files.length = r.tracks.length)

/-- `AudioCDWriter._verify_standard` (lines 1039-1110): quick check plus
per-track durations within a 2-second absolute tolerance.  A track whose
original duration does not resolve, or whose readback length fails to
parse, is skipped (`continue`) without failing the verification. -/
def verify_standard {α : Type} (dur : α → Option ℚ) (r : DiscReader)
    (original_wav_files : List α) : Bool :=
  if r.tracks.isEmpty then false
  else if original_wav_files.length ≠ r.tracks.length then false
  else
    (r.tracks.zip original_wav_files).all (fun p =>
      match dur p.2 with
      | none => true
      | some orig =>
          match cdDuration p.1.length with
          | none => true
          | some cd => decide (|orig - cd| ≤ 2))

/-- Per-track verdict of `_verify_full` (lines 1151-1218). -/
inductive TrackStatus
  | passed
  | failed
  | unknown
deriving DecidableEq, Repr

/-- The status recorded for one track during full verification: a failed rip
or checksum computation fails the track, a missing original checksum makes
it unknown, otherwise the checksums are compared. -/
def fullTrackStatus {α : Type} (r : DiscReader)
    (original_checksums : α → Option String) (t : ReadbackTrack) (orig : α) :
    TrackStatus :=
  match r.rip t.number with
  | .ripFailed => .failed
  | .checksumFailed => .failed
  | .ripped ripped =>
      match original_checksums orig with
      | none => .unknown
      | some oc => if ripped = oc then .passed else .failed

/-- `AudioCDWriter._verify_full` (lines 1112-1250): `False` when `cdparanoia`
is missing, the disc is unreadable, the track counts differ, or any track
fails; `True` only when every track passed; `False` (inconclusive) when some
tracks are unknown. -/
def verify_full {α : Type} (r : DiscReader) (original_wav_files : List α)
    (original_checksums : α → Option String) : Bool :=
  if r.cdparanoiaAvailable = false then false
  else if r.tracks.isEmpty then false
  else if original_wav_files.length ≠ r.tracks.length then false
  else
    let results := (r.tracks.zip original_wav_files).map
      (fun p => fullTrackStatus r original_checksums p.1 p.2)
    let failed := results.count TrackStatus.failed
    let passed := results.count TrackStatus.passed
    if 0 < failed then false
    else if passed = results.length then true
    else false

/-- `AudioCDWriter.verify_burned_disc` (lines 985-1008): dispatch on the
method string, any string other than "quick" and "standard" meaning full
verification. -/
def verify_burned_disc {α : Type} (dur : α → Option ℚ) (r : DiscReader)
    (original_wav_files : List α) (original_checksums : α → Option String)
    (verify_method : String) : Bool :=
  if verify_method = "quick" then verify_quick r original_wav_files
  else if verify_method = "standard" then
    verify_standard dur r original_wav_files
  else verify_full r original_wav_files original_checksums

/-- C5 (corrected): on tooling unavailability full verification returns the
plain boolean `False`, exactly the value returned on a checksum mismatch;
there is no distinct "tooling unavailable" outcome in the return value, only
in the printed text. -/
theorem C5_amended {α : Type} (dur : α → Option ℚ) (r : DiscReader)
    (files : List α) (sums : α → Option String) :
    (r.cdparanoiaAvailable = false →
        verify_burned_disc dur r files sums "full" = false) ∧
    ((∃ p ∈ r.tracks.zip files, fullTrackStatus r sums p.1 p.2 =
        TrackStatus.failed) →
      verify_burned_disc dur r files sums "full" = false) := by
  have hdis : verify_burned_disc dur r files sums "full" =
      verify_full r files sums := by
    unfold verify_burned_disc
    rw [if_neg (by decide), if_neg (by decide)]
  constructor
  · intro hA
    rw [hdis]
    unfold verify_full
    rw [if_pos hA]
  · rintro ⟨p, hp, hfail⟩
    rw [hdis]
    unfold verify_full
    by_cases hA : r.cdparanoiaAvailable = false
    · rw [if_pos hA]
    · rw [if_neg hA]
      by_cases hE : r.tracks.isEmpty = true
      · rw [if_pos hE]
      · rw [if_neg hE]
        by_cases hL : files.length ≠ r.tracks.length
        · rw [if_pos hL]
        · rw [if_neg hL]
          have hmem : TrackStatus.failed ∈
              (r.tracks.zip files).map
                (fun q => fullTrackStatus r sums q.1 q.2) := by
            exact List.mem_map.mpr ⟨p, hp, hfail⟩
          have hcount : 0 < ((r.tracks.zip files).map
              (fun q => fullTrackStatus r sums q.1 q.2)).count
                TrackStatus.failed :=
            List.count_pos_iff.mpr hmem
          simp only [if_pos hcount]

/-- Reader for the C5 counterexample: extraction tooling missing. -/
def unavailableReader : DiscReader :=
  ⟨false, [], fun _ => RipOutcome.ripFailed⟩

/-- Reader for the C5 counterexample: tooling present, one track whose
ripped checksum mismatches the recorded one. -/
def mismatchReader : DiscReader :=
  ⟨true, [⟨1, LengthText.secs 185⟩], fun _ => RipOutcome.ripped "aaaa"⟩

/-- Original checksums for the C5 counterexample. -/
def sumsCE : Unit → Option String := fun _ => some "bbbb"

/-- Prober for the C5 counterexample. -/
def durCE : Unit → Option ℚ := fun _ => some 185

/-- C5 counterexample: for the same one-track input, full verification
returns the same value, `False`, when the extraction tool is missing and
when the readback checksum mismatches: the two outcomes are
indistinguishable to a caller. -/
theorem C5_counterexample :
    verify_burned_disc durCE unavailableReader [()] sumsCE "full" =
      verify_burned_disc durCE mismatchReader [()] sumsCE "full" ∧
    verify_burned_disc durCE mismatchReader [()] sumsCE "full" = false := by
  constructor
  · decide
  · decide

theorem C5_amended_witness :
    verify_burned_disc durCE unavailableReader [()] sumsCE "full" = false :=
  (C5_amended durCE unavailableReader [()] sumsCE).1 rfl

/-- C6 (corrected): when every original duration resolves and every readback
length parses, standard verification passes exactly when the readback is
non-empty, the track counts agree, and every track is within the 2-second
absolute tolerance.  (The non-emptiness condition is missing from the claim:
an empty readback fails even against an empty original list.) -/
theorem C6_amended {α : Type} (dur : α → Option ℚ) (r : DiscReader)
    (files : List α)
    (hres : ∀ f ∈ files, (dur f).isSome = true)
    (hparse : ∀ t ∈ r.tracks, (cdDuration t.length).isSome = true) :
    verify_standard dur r files = true ↔
      (r.tracks ≠ [] ∧ r.tracks.length = files.length ∧
        ∀ p ∈ r.tracks.zip files, ∀ od cd : ℚ,
          dur p.2 = some od → cdDuration p.1.length = some cd →
          |od - cd| ≤ 2) := by
  unfold verify_standard
  by_cases hE : r.tracks.isEmpty = true
  · rw [if_pos hE]
    have h0 : r.tracks = [] := by
      cases htr : r.tracks with
      | nil => rfl
      | cons a l => rw [htr] at hE; simp at hE
    simp [h0]
  · rw [if_neg hE]
    have hne : r.tracks ≠ [] := fun h0 => hE (by rw [h0]; rfl)
    by_cases hL : files.length ≠ r.tracks.length
    · rw [if_pos hL]
      constructor
      · intro hfalse
        exact absurd hfalse (by simp)
      · rintro ⟨-, hlen, -⟩
        exact absurd hlen.symm hL
    · rw [if_neg hL]
      push_neg at hL
      constructor
      · intro hall
        refine ⟨hne, hL.symm, ?_⟩
        intro p hp od cd hod hcd
        have hthis := List.all_eq_true.mp hall p hp
        simp only [hod, hcd] at hthis
        exact of_decide_eq_true hthis
      · rintro ⟨-, -, htol⟩
        apply List.all_eq_true.mpr
        intro p hp
        obtain ⟨od, hod⟩ :=
          Option.isSome_iff_exists.mp (hres p.2 (List.of_mem_zip hp).2)
        obtain ⟨cd, hcd⟩ :=
          Option.isSome_iff_exists.mp (hparse p.1 (List.of_mem_zip hp).1)
        simp only [hod, hcd]
        exact decide_eq_true (htol p hp od cd hod hcd)

/-- Reader for the C6 counterexample: tooling present but the readback
track list is empty. -/
def emptyReader : DiscReader := ⟨true, [], fun _ => RipOutcome.ripFailed⟩

/-- C6 counterexample: with an empty original list and an empty readback the
track counts agree (0 = 0) and the tolerance condition holds vacuously, so
the claimed iff demands a pass, yet `_verify_standard` returns `False`
("could not read disc"). -/
theorem C6_counterexample :
    verify_standard (fun _ : Unit => some 100) emptyReader ([] : List Unit) =
      false ∧
    emptyReader.tracks.length = ([] : List Unit).length ∧
    emptyReader.tracks.zip ([] : List Unit) = [] := by
  exact ⟨rfl, rfl, rfl⟩

/-- Reader for the C6 witness: one track whose readback length is the plain
numeric string "187". -/
def readerW : DiscReader :=
  ⟨true, [⟨1, LengthText.secs 187⟩], fun _ => RipOutcome.ripFailed⟩

/-- Prober for the C6 witness: the original track is 187 seconds long. -/
def durW187 : Unit → Option ℚ := fun _ => some 187

theorem C6_amended_witness :
    verify_standard durW187 readerW [()] = true :=
  (C6_amended durW187 readerW [()]
    (by intro f hf; rfl)
    (by intro t ht; simp [readerW] at ht; rw [ht]; rfl)).mpr
    ⟨by simp [readerW], rfl, by
      intro p hp od cd hod hcd
      simp only [readerW] at hp
      fin_cases hp
      simp only [durW187, Option.some.injEq] at hod
      simp only [cdDuration, Option.some.injEq] at hcd
      rw [← hod, ← hcd, sub_self, abs_zero]
      exact zero_le_two⟩

example :
    verify_standard (fun _ : Unit => some 185)
      ⟨true, [⟨1, LengthText.msf 3 7 12⟩], fun _ => RipOutcome.ripFailed⟩
      [()] = true := by
  norm_num [verify_standard, cdDuration]

example :
    verify_standard (fun _ : Unit => some 185)
      ⟨true, [⟨1, LengthText.msf 3 2 0⟩], fun _ => RipOutcome.ripFailed⟩
      [()] = false := by
  norm_num [verify_standard, cdDuration]
